import Mathlib

/-!
# Verification of `wordle-strats` (src/wordle.cpp)

A shallow embedding of the core of `src/wordle.cpp` together with proofs
about it.  The embedding follows the C++ source line by line:

* `Mark` / `Marks` embed the `Marks` class: five two-bit groups, value
  `0` = undefined (`unset`), `1` = letter absent (`absent`), `2` = wrong
  spot (`wrongSpot`), `3` = right spot (`correct`).  The bit-packed
  `uint32_t` is represented as a function `Fin 5 → Mark`; the packing is
  a bijection on the five groups, so structural equality of the function
  coincides with `uint32_t` equality of the packed value.
* `compute_marks` embeds `Word::compute_marks` (lines 115-144), as three
  passes over positions `0..4` exactly as in the source.  Note that the
  inner loop of the second pass in the source has no `break` and never
  calls `set_wrong_spot`; the embedding reproduces both faithfully.
* `bump` / `histogram` / `sum_of_squares_score` embed the body of the
  task lambda of `compute_sum_of_squares_ranks` (lines 177-187):
  `std::map<Marks, int64_t>` is represented as an association list
  keyed by `Marks` (the same finite map; only the content matters, the
  final loop sums over all entries).
* `SchedState` / `SchedStep` embed the `ThreadPool` (lines 17-64) as a
  transition system: the constructor starts the workers immediately,
  `run` pops a task while the queue is non-empty and returns (the worker
  exits permanently) as soon as it observes an empty queue, `submit`
  pushes a task, and `wait` joins all workers.  A complete run is a
  sequence of interleaved steps after which all tasks were submitted and
  every worker has exited.
* `best_indices` embeds the selection part of
  `print_best_sum_of_squares_ranks` (lines 193-206): clamp
  `show_count` to `n`, fill `indices` with `0..n-1`, and apply
  `std::ranges::nth_element` followed by `std::ranges::sort` of the
  prefix with comparator `ranks[i] < ranks[j]`.  The two library calls
  are modelled by their contract: the combination places some
  `show_count` smallest indices in the prefix and sorts the prefix; we
  realise this deterministically as a full stable sort followed by
  taking the prefix, which satisfies both postconditions.
* `parse_words` embeds the parser (lines 154-171) with its `last_quote`
  index and the `i - last_quote == 6` test, including the fact that the
  `else` branch ("Bad word or parsing error") leaves `last_quote`
  unchanged.
-/

/-- The four per-slot states of the `Marks` bitmask (two bits per slot):
`0` undefined, `1` the letter does not exist in the solution, `2` wrong
spot, `3` right spot. -/
inductive Mark where
  | unset
  | absent
  | wrongSpot
  | correct
deriving DecidableEq, Repr

/-- A `Word`: `std::array<char, 5>`, viewed as its five characters. -/
abbrev Word := Fin 5 → Char

/-- A fully decoded `Marks` value: one `Mark` per slot. -/
abbrev Marks := Fin 5 → Mark

/-- The loop index sequence `for (int i = 0; i < 5; i++)`. -/
def idxs : List (Fin 5) := [0, 1, 2, 3, 4]

/-- The local state of `Word::compute_marks`: the marks accumulated so
far and the `used_target` / `used_word` bitsets. -/
structure MState where
  marks : Marks
  usedTarget : Fin 5 → Bool
  usedWord : Fin 5 → Bool
deriving DecidableEq

/-- `Marks marks; std::bitset<5> used_target{}, used_word{};` -/
def initMState : MState :=
  ⟨fun _ => Mark.unset, fun _ => false, fun _ => false⟩

/-- First pass of `compute_marks` (lines 118-124): exact matches get
`set_correct` and consume both positions. -/
def pass1 (w t : Word) : MState :=
  idxs.foldl (fun s i =>
    if w i == t i then
      { marks := Function.update s.marks i Mark.correct,
        usedTarget := Function.update s.usedTarget i true,
        usedWord := Function.update s.usedWord i true }
    else s) initMState

/-- Second pass of `compute_marks` (lines 126-135).  As in the source:
the guard `!used_word[i]` is tested once, the inner loop runs over all
`j` with no `break` (so one guess position may consume several target
positions), and no mark is written. -/
def pass2 (w t : Word) (s : MState) : MState :=
  idxs.foldl (fun s i =>
    if s.usedWord i then s
    else
      idxs.foldl (fun s' j =>
        if w i == t j && !(s'.usedTarget j) then
          { s' with usedWord := Function.update s'.usedWord i true,
                    usedTarget := Function.update s'.usedTarget j true }
        else s') s) s

/-- Third pass of `compute_marks` (lines 137-141): unconsumed guess
positions get `set_none`. -/
def pass3 (s : MState) : MState :=
  idxs.foldl (fun s i =>
    if s.usedWord i then s
    else { s with marks := Function.update s.marks i Mark.absent }) s

/-- `Word::compute_marks` (lines 115-144). -/
def compute_marks (w t : Word) : Marks :=
  (pass3 (pass2 w t (pass1 w t))).marks

/-- Second pass as the specification describes it (for refinement
comparison with `pass2`): each unconsumed guess position is matched to
the *first* unconsumed target position holding the same letter, exactly
that one target position is consumed, and the slot is marked
`wrongSpot`. -/
def greedyPass2 (w t : Word) (s : MState) : MState :=
  idxs.foldl (fun s i =>
    if s.usedWord i then s
    else
      match idxs.find? (fun j => w i == t j && !(s.usedTarget j)) with
      | some j =>
          { marks := Function.update s.marks i Mark.wrongSpot,
            usedWord := Function.update s.usedWord i true,
            usedTarget := Function.update s.usedTarget j true }
      | none => s) s

/-- The feedback computation as the specification describes it:
passes 1 and 3 as in the source, pass 2 replaced by the greedy
leftmost-first matching that marks `wrongSpot`. -/
def greedy_marks (w t : Word) : Marks :=
  (pass3 (greedyPass2 w t (pass1 w t))).marks

/-- All five slots `correct`. -/
def allCorrect : Marks := fun _ => Mark.correct

/-- All five slots `wrongSpot`. -/
def allWrongPosition : Marks := fun _ => Mark.wrongSpot

/-- `marks_count[key]++` on the association-list representation of
`std::map<Marks, int64_t>`: increment the entry of `k`, inserting it
with count `1` when absent (`operator[]` value-initialises to `0`). -/
def bump (h : List (Marks × Int)) (k : Marks) : List (Marks × Int) :=
  match h with
  | [] => [(k, 1)]
  | (k', c) :: rest => if k' = k then (k', c + 1) :: rest else (k', c) :: bump rest k

/-- The histogram loop of the task lambda (lines 178-181): for each
target, compute its marks against the guess and bump its bucket. -/
def histogram (g : Word) (targets : List Word) : List (Marks × Int) :=
  targets.foldl (fun h t => bump h (compute_marks g t)) []

/-- The reduction loop of the task lambda (lines 182-186): sum of
`count * count` over all histogram entries. -/
def sum_of_squares_score (g : Word) (targets : List Word) : Int :=
  (histogram g targets).foldl (fun acc p => acc + p.2 * p.2) 0

/-- Sum of all histogram counts. -/
def sumCounts (h : List (Marks × Int)) : Int :=
  (h.map Prod.snd).sum

/-- The count of bucket `k` in an association list: the value of the
first entry keyed `k`, `0` when there is none. -/
def hLookup (h : List (Marks × Int)) (k : Marks) : Int :=
  match h with
  | [] => 0
  | (k', c) :: rest => if k' = k then c else hLookup rest k

/-- The keys of the histogram. -/
def hKeys (h : List (Marks × Int)) : List Marks :=
  h.map Prod.fst

/-- State of `compute_sum_of_squares_ranks` together with its
`ThreadPool` (lines 17-64 and 173-191): the task queue (task `i` scores
guess `i`), how many tasks the main thread has submitted so far, which
workers are still running, and the `result` vector
(`std::vector<int64_t> result(words.size())` is zero-initialised). -/
structure SchedState where
  queue : List Nat
  submitted : Nat
  alive : Nat → Bool
  result : Nat → Int
deriving Inhabited

/-- The state right after `ThreadPool pool;` inside
`compute_sum_of_squares_ranks`: the constructor has already started all
`numWorkers` workers, nothing is submitted yet, every result slot is
`0`. -/
def initSched (numWorkers : Nat) : SchedState :=
  { queue := []
    submitted := 0
    alive := fun w => decide (w < numWorkers)
    result := fun _ => 0 }

/-- One interleaved step of the scheduler.  `score i` is the value the
task for guess `i` writes (`result[i] = sum_of_squares`); `n` is the
number of guesses.
* `submit`: the main thread's loop body `pool.submit(...)` for the next
  index (the main thread submits in program order `0, 1, ...`).
* `pop`: a live worker, holding the lock, sees a non-empty queue, pops
  the front task, and runs it (the write goes to slot `i` only).
* `exit`: a live worker, holding the lock, sees `queue_.size() == 0`,
  leaves the `while` loop, and terminates permanently. -/
inductive SchedStep (score : Nat → Int) (n : Nat) : SchedState → SchedState → Prop
  | submit (s : SchedState) (h : s.submitted < n) :
      SchedStep score n s
        { s with queue := s.queue ++ [s.submitted], submitted := s.submitted + 1 }
  | pop (s : SchedState) (w i : Nat) (rest : List Nat)
      (hw : s.alive w = true) (hq : s.queue = i :: rest) :
      SchedStep score n s
        { s with queue := rest, result := Function.update s.result i (score i) }
  | exit (s : SchedState) (w : Nat) (hw : s.alive w = true) (hq : s.queue = []) :
      SchedStep score n s
        { s with alive := Function.update s.alive w false }

/-- A complete execution of `compute_sum_of_squares_ranks` with
`numWorkers` workers and `n` guesses: some interleaving of steps after
which the main thread has submitted all `n` tasks and `pool.wait()` has
returned, i.e. every worker has exited. -/
def CompleteRun (score : Nat → Int) (n numWorkers : Nat) (final : SchedState) : Prop :=
  Relation.ReflTransGen (SchedStep score n) (initSched numWorkers) final ∧
    final.submitted = n ∧ ∀ w, w < numWorkers → final.alive w = false

/-- The selection performed by `print_best_sum_of_squares_ranks`
(lines 193-206): clamp `show_count` to `n`, fill `indices` with
`0..n-1`, run `std::ranges::nth_element` with the partition point
`indices.begin() + show_count` and comparator `ranks[i] < ranks[j]`,
and sort the prefix of length `show_count` with the same comparator.
The two standard-library calls are modelled by their contract — after
them the prefix holds `show_count` smallest indices in ascending rank
order — realised deterministically as a full stable sort followed by
taking the clamped prefix. -/
def best_indices (n : Nat) (rank : Nat → Int) (show_count : Nat) : List Nat :=
  ((List.range n).mergeSort (fun i j => rank i ≤ rank j)).take (min show_count n)

/-- The parser loop of `parse_words` (lines 154-171) on the character
list `full`, at absolute position `i`, with `lastQ` the recorded
position of the pending opening quote (`none` encodes the
`~(size_t)0` sentinel) and `rest = full.drop i` the characters still to
scan.  On a quote at position `i`: record it when there is no pending
quote; when `i - lastQ == 6`, emit the five characters after the
pending quote (`subspan(last_quote + 1).subspan<0, 5>()`) and clear;
otherwise — the "Bad word or parsing error" branch — do nothing, in
particular keep the pending quote. -/
def parseGo (full : List Char) : Nat → Option Nat → List Char → List (List Char)
  | _, _, [] => []
  | i, lastQ, c :: rest =>
    if c = '"' then
      match lastQ with
      | none => parseGo full (i + 1) (some i) rest
      | some q =>
        if i - q = 6 then
          ((full.drop (q + 1)).take 5) :: parseGo full (i + 1) none rest
        else
          parseGo full (i + 1) (some q) rest
    else
      parseGo full (i + 1) lastQ rest

/-- `parse_words` (lines 154-171): scan the whole contents from
position `0` with no pending quote. -/
def parse_words (contents : List Char) : List (List Char) :=
  parseGo contents 0 none contents

/-- Builds a well-formed input for the parser: for each chunk, some
leading text followed by a quoted word, and trailing text at the end. -/
def buildInput (chunks : List (List Char × List Char)) (trailing : List Char) : List Char :=
  (chunks.map (fun p => p.1 ++ '"' :: (p.2 ++ ['"']))).flatten ++ trailing

/-- Concrete guess list for the scheduler counterexample. -/
def demoWords : List Word := [!['a', 'b', 'c', 'd', 'e']]

/-- Concrete target list for the scheduler counterexample. -/
def demoTargets : List Word := [!['a', 'b', 'c', 'd', 'e']]

/-- The score each task of the counterexample instance writes. -/
def demoScore (i : Nat) : Int :=
  sum_of_squares_score (demoWords.getD i (fun _ => 'a')) demoTargets

/-- The scheduler state after the single worker observed the still
empty queue and exited. -/
def demoExited : SchedState :=
  { initSched 1 with alive := Function.update (initSched 1).alive 0 false }

/-- The scheduler state after the main thread then submitted task `0`:
all tasks submitted, no worker alive — a complete run whose only task
was never executed. -/
def demoFinal : SchedState :=
  { demoExited with queue := demoExited.queue ++ [0], submitted := 1 }

/-- The word `abcde`. -/
def wAbcde : Word := !['a', 'b', 'c', 'd', 'e']

/-- The word `edcba`. -/
def wEdcba : Word := !['e', 'd', 'c', 'b', 'a']

/-- The word `zzaaq`: two duplicate-letter guess positions (2 and 3,
both `a`). -/
def wZzaaq : Word := !['z', 'z', 'a', 'a', 'q']

/-- The word `aawwa`: three occurrences of `a`, none aligned with
`zzaaq`. -/
def wAawwa : Word := !['a', 'a', 'w', 'w', 'a']

theorem sumCounts_nil : sumCounts [] = 0 := rfl

theorem sumCounts_bump (h : List (Marks × Int)) (k : Marks) :
    sumCounts (bump h k) = sumCounts h + 1 := by
  induction h with
  | nil => simp [bump, sumCounts]
  | cons p rest ih =>
    obtain ⟨k', c⟩ := p
    by_cases hk : k' = k
    · simp [bump, hk, sumCounts]
      ring
    · simp [bump, hk, sumCounts] at ih ⊢
      omega

theorem sumCounts_foldl_bump (g : Word) (ts : List Word) :
    ∀ h : List (Marks × Int),
      sumCounts (ts.foldl (fun h t => bump h (compute_marks g t)) h)
        = sumCounts h + ts.length := by
  induction ts with
  | nil => intro h; simp
  | cons t ts ih =>
    intro h
    simp only [List.foldl_cons, ih, sumCounts_bump, List.length_cons]
    push_cast
    ring

theorem hLookup_bump_self (h : List (Marks × Int)) (k : Marks) :
    hLookup (bump h k) k = hLookup h k + 1 := by
  induction h with
  | nil => simp [bump, hLookup]
  | cons p rest ih =>
    obtain ⟨k', c⟩ := p
    by_cases hk : k' = k <;> simp [bump, hLookup, hk, ih]

theorem hLookup_bump_ne (h : List (Marks × Int)) (k k' : Marks) (hne : k' ≠ k) :
    hLookup (bump h k) k' = hLookup h k' := by
  induction h with
  | nil => simp [bump, hLookup, Ne.symm hne]
  | cons p rest ih =>
    obtain ⟨k₀, c⟩ := p
    by_cases hk : k₀ = k <;> simp [bump, hLookup, hk, ih, Ne.symm hne]

theorem hKeys_bump_mem (h : List (Marks × Int)) (k : Marks) (hmem : k ∈ hKeys h) :
    hKeys (bump h k) = hKeys h := by
  induction h with
  | nil => cases hmem
  | cons p rest ih =>
    obtain ⟨k₀, c⟩ := p
    by_cases hk : k₀ = k
    · simp [bump, hKeys, hk]
    · have hmem' : k ∈ hKeys rest := by
        simp only [hKeys, List.map_cons, List.mem_cons] at hmem
        rcases hmem with e | hm
        · exact absurd (Eq.symm e) hk
        · exact hm
      have hrec := ih hmem'
      simp only [hKeys] at hrec
      simp only [bump, if_neg hk, hKeys, List.map_cons, hrec]

theorem hKeys_bump_not_mem (h : List (Marks × Int)) (k : Marks) (hmem : k ∉ hKeys h) :
    hKeys (bump h k) = hKeys h ++ [k] := by
  induction h with
  | nil => simp [bump, hKeys]
  | cons p rest ih =>
    obtain ⟨k₀, c⟩ := p
    have hk : ¬k₀ = k := by
      intro e
      exact hmem (by simp [hKeys, e])
    have hrest : k ∉ hKeys rest := by
      intro hm
      apply hmem
      simp only [hKeys, List.map_cons, List.mem_cons]
      exact Or.inr (by simpa only [hKeys] using hm)
    have hrec := ih hrest
    simp only [hKeys] at hrec
    simp only [bump, if_neg hk, hKeys, List.map_cons, hrec, List.cons_append]

theorem hKeys_bump_nodup (h : List (Marks × Int)) (k : Marks)
    (hn : (hKeys h).Nodup) : (hKeys (bump h k)).Nodup := by
  by_cases hmem : k ∈ hKeys h
  · rw [hKeys_bump_mem h k hmem]; exact hn
  · rw [hKeys_bump_not_mem h k hmem]
    simp only [List.nodup_append]
    exact ⟨hn, List.nodup_singleton k, by
      intro a ha hak
      rw [List.mem_singleton] at hak
      exact hmem (hak ▸ ha)⟩

theorem snd_eq_hLookup_of_mem (h : List (Marks × Int)) (hn : (hKeys h).Nodup) :
    ∀ p ∈ h, p.2 = hLookup h p.1 := by
  induction h with
  | nil => intro p hp; cases hp
  | cons q rest ih =>
    obtain ⟨k₀, c⟩ := q
    intro p hp
    rcases List.mem_cons.mp hp with hp | hp
    · subst hp; simp [hLookup]
    · have hk : k₀ ≠ p.1 := by
        intro e
        have : p.1 ∈ hKeys rest := List.mem_map_of_mem Prod.fst hp
        exact (List.nodup_cons.mp (by simpa [hKeys] using hn)).1 (e ▸ this)
      have hrest : (hKeys rest).Nodup := (List.nodup_cons.mp (by simpa [hKeys] using hn)).2
      simp [hLookup, hk, ih hrest p hp]

theorem histogram_eq_foldl_marks (g : Word) (ts : List Word) :
    histogram g ts = (ts.map (compute_marks g)).foldl bump [] := by
  rw [histogram, List.foldl_map]

theorem hKeys_foldl_bump_nodup (l : List Marks) :
    (hKeys (l.foldl bump [])).Nodup := by
  induction l using List.reverseRecOn with
  | nil => simp [hKeys]
  | append_singleton l x ih =>
    rw [List.foldl_append, List.foldl_cons, List.foldl_nil]
    exact hKeys_bump_nodup _ x ih

theorem hLookup_foldl_bump (l : List Marks) (k : Marks) :
    hLookup (l.foldl bump []) k = (l.count k : Int) := by
  induction l using List.reverseRecOn with
  | nil => simp [hLookup]
  | append_singleton l x ih =>
    rw [List.foldl_append, List.foldl_cons, List.foldl_nil, List.count_append]
    by_cases hk : k = x
    · subst hk; simp [hLookup_bump_self, ih]
    · rw [hLookup_bump_ne _ _ _ hk, ih, List.count_singleton]
      simp [beq_iff_eq, Ne.symm hk]

theorem mem_hKeys_foldl_bump (l : List Marks) (k : Marks) :
    k ∈ hKeys (l.foldl bump []) ↔ k ∈ l := by
  induction l using List.reverseRecOn with
  | nil => simp [hKeys]
  | append_singleton l x ih =>
    rw [List.foldl_append, List.foldl_cons, List.foldl_nil]
    by_cases hmem : x ∈ hKeys (l.foldl bump [])
    · rw [hKeys_bump_mem _ x hmem]
      simp only [ih, List.mem_append, List.mem_singleton]
      constructor
      · exact Or.inl
      · rintro (h | rfl)
        · exact h
        · exact ih.mp hmem
    · rw [hKeys_bump_not_mem _ x hmem]
      simp [ih]

theorem foldl_add_sq (h : List (Marks × Int)) :
    ∀ a : Int, h.foldl (fun acc p => acc + p.2 * p.2) a
      = a + (h.map (fun p => p.2 * p.2)).sum := by
  induction h with
  | nil => intro a; simp
  | cons p rest ih =>
    intro a
    simp [ih]
    ring

theorem hKeys_perm_dedup (l : List Marks) :
    (hKeys (l.foldl bump [])).Perm l.dedup := by
  apply List.perm_of_nodup_nodup_toFinset_eq (hKeys_foldl_bump_nodup l) (List.nodup_dedup l)
  ext k
  simp [List.mem_toFinset, mem_hKeys_foldl_bump, List.mem_dedup]

/-- C5: for every guess and target list the histogram is a complete
partition of the targets — the counts over all buckets sum to the
number of targets (each target bumps exactly one bucket by one). -/
theorem histogram_partition_complete (g : Word) (targets : List Word) :
    sumCounts (histogram g targets) = (targets.length : Int) := by
  simpa [histogram, sumCounts] using sumCounts_foldl_bump g targets []

/-- C4: for every guess and target list, the aggregated score is the
sum over all distinct feedback codes of the squared occurrence count of
that code, and an empty target list scores `0`. -/
theorem sum_of_squares_score_eq_sum_sq_counts (g : Word) (targets : List Word) :
    sum_of_squares_score g targets
      = (((targets.map (compute_marks g)).dedup).map
          (fun m => ((targets.map (compute_marks g)).count m : Int) ^ 2)).sum ∧
    sum_of_squares_score g [] = 0 := by
  refine ⟨?_, rfl⟩
  have hH := histogram_eq_foldl_marks g targets
  set l := targets.map (compute_marks g) with hl
  rw [sum_of_squares_score, hH, foldl_add_sq, zero_add]
  have h1 : (l.foldl bump []).map (fun p => p.2 * p.2)
      = (l.foldl bump []).map (fun p => (l.count p.1 : Int) * (l.count p.1 : Int)) := by
    apply List.map_congr_left
    intro p hp
    rw [snd_eq_hLookup_of_mem _ (hKeys_foldl_bump_nodup l) p hp, hLookup_foldl_bump]
  have h2 : (l.foldl bump []).map (fun p => (l.count p.1 : Int) * (l.count p.1 : Int))
      = (hKeys (l.foldl bump [])).map (fun m => (l.count m : Int) * (l.count m : Int)) := by
    simp [hKeys, List.map_map, Function.comp]
  have h3 := ((hKeys_perm_dedup l).map
    (fun m => (l.count m : Int) * (l.count m : Int))).sum_eq
  rw [h1, h2, h3]
  simp only [pow_two]

theorem rank_le_trans (rank : Nat → Int) :
    ∀ a b c : Nat, (decide (rank a ≤ rank b)) = true →
      (decide (rank b ≤ rank c)) = true → (decide (rank a ≤ rank c)) = true := by
  intro a b c hab hbc
  simp only [decide_eq_true_eq] at *
  exact le_trans hab hbc

theorem rank_le_total (rank : Nat → Int) :
    ∀ a b : Nat, ((decide (rank a ≤ rank b)) || (decide (rank b ≤ rank a))) = true := by
  intro a b
  simp only [Bool.or_eq_true, decide_eq_true_eq]
  exact le_total (rank a) (rank b)

theorem best_indices_sorted_all (n : Nat) (rank : Nat → Int) :
    List.Pairwise (fun i j => rank i ≤ rank j)
      ((List.range n).mergeSort (fun i j => rank i ≤ rank j)) := by
  have h := List.sorted_mergeSort (rank_le_trans rank) (rank_le_total rank) (List.range n)
  exact h.imp (fun hab => by simpa using hab)

/-- C6: the top-k selection returns exactly `min k n` entries in
ascending rank order; no index outside the returned selection has a
strictly lower rank than a returned one (equivalently, every returned
rank is `≤` every excluded rank); `k = 0` yields the empty sequence and
`k ≥ n` yields all `n` indices, fully sorted. -/
theorem best_indices_topk_contract (n k : Nat) (rank : Nat → Int) :
    (best_indices n rank k).length = min k n ∧
    List.Sorted (fun i j => rank i ≤ rank j) (best_indices n rank k) ∧
    (∀ j, j < n → j ∉ best_indices n rank k →
      ∀ i ∈ best_indices n rank k, rank i ≤ rank j) ∧
    best_indices n rank 0 = [] ∧
    (n ≤ k → (best_indices n rank k).Perm (List.range n)) := by
  have hperm := List.mergeSort_perm (List.range n) (fun i j => rank i ≤ rank j)
  have hlen : ((List.range n).mergeSort (fun i j => rank i ≤ rank j)).length = n := by
    rw [List.length_mergeSort, List.length_range]
  refine ⟨?_, ?_, ?_, ?_, ?_⟩
  · rw [best_indices, List.length_take, hlen]
    omega
  · exact ((best_indices_sorted_all n rank).sublist (List.take_sublist _ _))
  · intro j hj hj' i hi
    have hsorted := best_indices_sorted_all n rank
    have hsplit := List.take_append_drop (min k n)
      ((List.range n).mergeSort (fun i j => rank i ≤ rank j))
    rw [← hsplit, List.pairwise_append] at hsorted
    have hjfull : j ∈ (List.range n).mergeSort (fun i j => rank i ≤ rank j) :=
      hperm.mem_iff.mpr (List.mem_range.mpr hj)
    have hjdrop : j ∈ ((List.range n).mergeSort (fun i j => rank i ≤ rank j)).drop (min k n) := by
      rw [← hsplit, List.mem_append] at hjfull
      rcases hjfull with h | h
      · exact absurd h hj'
      · exact h
    exact hsorted.2.2 i hi j hjdrop
  · simp [best_indices]
  · intro hk
    have : min k n = n := by omega
    rw [best_indices, this, List.take_of_length_le (le_of_eq hlen)]
    exact hperm

/-- C6 witness at a concrete instance (two guesses with ranks 3 and 1,
`k = 5 > n = 2`). -/
theorem best_indices_topk_contract_witness :
    (best_indices 2 (fun i => if i = 0 then 3 else 1) 5).length = min 5 2 ∧
    List.Sorted (fun i j => (if i = 0 then (3 : Int) else 1) ≤ (if j = 0 then 3 else 1))
      (best_indices 2 (fun i => if i = 0 then 3 else 1) 5) ∧
    (∀ j, j < 2 → j ∉ best_indices 2 (fun i => if i = 0 then 3 else 1) 5 →
      ∀ i ∈ best_indices 2 (fun i => if i = 0 then 3 else 1) 5,
        (if i = 0 then (3 : Int) else 1) ≤ (if j = 0 then 3 else 1)) ∧
    best_indices 2 (fun i => if i = 0 then 3 else 1) 0 = [] ∧
    (2 ≤ 5 → (best_indices 2 (fun i => if i = 0 then 3 else 1) 5).Perm (List.range 2)) :=
  best_indices_topk_contract 2 5 (fun i => if i = 0 then 3 else 1)

/-- C10: the clamp `show_count = min(show_count, n)` keeps everything
in bounds for every requested count `k`, including `k = 0` and any
`k > n` such as the `(size_t)-1` sentinel passed by `main`: the
partition point `min k n` never exceeds the length `n` of the index
array, and every selected index is a valid position of the guess and
score arrays. -/
theorem best_indices_safe (n k : Nat) (rank : Nat → Int) :
    min k n ≤ n ∧ ∀ i ∈ best_indices n rank k, i < n := by
  refine ⟨min_le_right k n, ?_⟩
  intro i hi
  have : i ∈ (List.range n).mergeSort (fun i j => rank i ≤ rank j) :=
    List.mem_of_mem_take hi
  have := (List.mergeSort_perm (List.range n) (fun i j => rank i ≤ rank j)).mem_iff.mp this
  exact List.mem_range.mp this

/-- C10 witness at the sentinel count `(size_t)-1 = 2^64 - 1` with
three guesses. -/
theorem best_indices_safe_witness :
    min (2 ^ 64 - 1) 3 ≤ 3 ∧ ∀ i ∈ best_indices 3 (fun _ => 0) (2 ^ 64 - 1), i < 3 :=
  best_indices_safe 3 (2 ^ 64 - 1) (fun _ => 0)

/-- The input `"abcd""hello"`: a malformed (4-letter) quoted token
followed by a well-formed 5-letter quoted word. -/
def malformedInput : List Char :=
  ['"', 'a', 'b', 'c', 'd', '"', '"', 'h', 'e', 'l', 'l', 'o', '"']

/-- Scanning characters that are not `"` advances the position and
leaves the parser state unchanged. -/
theorem parseGo_skip (full : List Char) :
    ∀ pre : List Char, (∀ c ∈ pre, c ≠ '"') →
      ∀ (i : Nat) (lastQ : Option Nat) (rest : List Char),
        parseGo full i lastQ (pre ++ rest) = parseGo full (i + pre.length) lastQ rest := by
  intro pre
  induction pre with
  | nil => intro _ i lastQ rest; simp
  | cons c pre ih =>
    intro hpre i lastQ rest
    have hc : c ≠ '"' := hpre c (List.mem_cons_self _ _)
    have hpre' : ∀ c ∈ pre, c ≠ '"' := fun c hc => hpre c (List.mem_cons_of_mem _ hc)
    simp only [List.cons_append, parseGo, if_neg hc, List.append_eq]
    rw [ih hpre' (i + 1) lastQ rest]
    congr 1
    simp [List.length_cons]
    omega

/-- A quote with no pending quote records the position. -/
theorem parseGo_quote_none (full : List Char) (i : Nat) (rest : List Char) :
    parseGo full i none ('"' :: rest) = parseGo full (i + 1) (some i) rest := by
  simp [parseGo]

/-- A quote exactly six positions after the pending quote emits the
five characters in between. -/
theorem parseGo_quote_some_hit (full : List Char) (i q : Nat) (rest : List Char)
    (h : i - q = 6) :
    parseGo full i (some q) ('"' :: rest)
      = ((full.drop (q + 1)).take 5) :: parseGo full (i + 1) none rest := by
  simp [parseGo, h]

/-- On input whose quoted spans all have length exactly 5, the parser
returns exactly the quoted words, in order. -/
theorem parseGo_wellformed (full : List Char) :
    ∀ (chunks : List (List Char × List Char)) (trailing : List Char) (i : Nat),
      (∀ p ∈ chunks, (∀ c ∈ p.1, c ≠ '"') ∧ p.2.length = 5 ∧ ∀ c ∈ p.2, c ≠ '"') →
      (∀ c ∈ trailing, c ≠ '"') →
      full.drop i = buildInput chunks trailing →
      parseGo full i none (buildInput chunks trailing) = chunks.map Prod.snd := by
  intro chunks
  induction chunks with
  | nil =>
    intro trailing i _ htr _
    have hb : buildInput [] trailing = trailing ++ [] := by simp [buildInput]
    rw [hb, parseGo_skip full trailing htr]
    rfl
  | cons p chunks ih =>
    intro trailing i hch htr hdrop
    obtain ⟨pre, w⟩ := p
    obtain ⟨hpre, hwlen, hwq⟩ := hch _ (List.mem_cons_self _ _)
    have hwlen5 : w.length = 5 := hwlen
    have hch' : ∀ q ∈ chunks, (∀ c ∈ q.1, c ≠ '"') ∧ q.2.length = 5 ∧ ∀ c ∈ q.2, c ≠ '"' :=
      fun q hq => hch q (List.mem_cons_of_mem _ hq)
    have hbuild : buildInput ((pre, w) :: chunks) trailing
        = pre ++ ('"' :: (w ++ ('"' :: buildInput chunks trailing))) := by
      simp [buildInput]
    rw [hbuild] at hdrop ⊢
    rw [parseGo_skip full pre hpre]
    have hdrop₁ : full.drop (i + pre.length)
        = '"' :: (w ++ ('"' :: buildInput chunks trailing)) := by
      rw [← List.drop_drop, hdrop, List.drop_left]
    rw [parseGo_quote_none]
    rw [parseGo_skip full w hwq]
    rw [parseGo_quote_some_hit full (i + pre.length + 1 + w.length) (i + pre.length) _
      (by omega)]
    have hdrop₂ : full.drop (i + pre.length + 1)
        = w ++ ('"' :: buildInput chunks trailing) := by
      have : full.drop (i + pre.length + 1) = (full.drop (i + pre.length)).drop 1 := by
        rw [List.drop_drop]
      rw [this, hdrop₁]
      rfl
    have hhead : (full.drop (i + pre.length + 1)).take 5 = w := by
      rw [hdrop₂, ← hwlen, List.take_left]
    have hdrop₃ : full.drop (i + pre.length + 1 + w.length + 1)
        = buildInput chunks trailing := by
      have h1 : full.drop (i + pre.length + 1 + w.length)
          = '"' :: buildInput chunks trailing := by
        have : full.drop (i + pre.length + 1 + w.length)
            = (full.drop (i + pre.length + 1)).drop w.length := by
          rw [List.drop_drop]
        rw [this, hdrop₂, List.drop_left]
      have : full.drop (i + pre.length + 1 + w.length + 1)
          = (full.drop (i + pre.length + 1 + w.length)).drop 1 := by
        rw [List.drop_drop]
      rw [this, h1]
      rfl
    rw [List.map_cons]
    congr 1
    exact ih trailing (i + pre.length + 1 + w.length + 1) hch' htr hdrop₃

/-- C9 amended: on input in which every quoted span has length exactly
5 (and no quote characters appear elsewhere), the parser returns
exactly the sequence of quoted 5-letter words in order of appearance,
with unquoted content ignored.  (On other inputs the malformed quoted
span is itself never emitted, but — see the counterexample — the
pending opening-quote marker is not reset, which can corrupt the
parsing of subsequent quoted words.) -/
theorem parse_words_wellformed (chunks : List (List Char × List Char)) (trailing : List Char)
    (hch : ∀ p ∈ chunks, (∀ c ∈ p.1, c ≠ '"') ∧ p.2.length = 5 ∧ ∀ c ∈ p.2, c ≠ '"')
    (htr : ∀ c ∈ trailing, c ≠ '"') :
    parse_words (buildInput chunks trailing) = chunks.map Prod.snd :=
  parseGo_wellformed _ chunks trailing 0 hch htr (by simp)

/-- Concrete well-formed chunks for the C9 witness: `xx"hello"` then
`"world"` with trailing `y`. -/
def demoChunks : List (List Char × List Char) :=
  [(['x', 'x'], ['h', 'e', 'l', 'l', 'o']), ([], ['w', 'o', 'r', 'l', 'd'])]

/-- Trailing text for the C9 witness. -/
def demoTrailing : List Char := ['y']

/-- C9 amended witness at a concrete well-formed input. -/
theorem parse_words_wellformed_witness :
    (∀ p ∈ demoChunks, (∀ c ∈ p.1, c ≠ '"') ∧ p.2.length = 5 ∧ ∀ c ∈ p.2, c ≠ '"') ∧
    (∀ c ∈ demoTrailing, c ≠ '"') ∧
    parse_words (buildInput demoChunks demoTrailing) = demoChunks.map Prod.snd :=
  ⟨by decide, by decide,
    parse_words_wellformed demoChunks demoTrailing (by decide) (by decide)⟩

/-- C9 counterexample: on `"abcd""hello"` the claim predicts that the
malformed 4-letter span `abcd` is skipped without affecting the rest,
i.e. the result `[hello]`.  The code instead keeps the pending opening
quote, so the quote at position 6 is six positions after it and the
parser emits the span `abcd"` (containing a quote character); `hello`
is never produced. -/
theorem parse_words_malformed_affects_rest :
    parse_words malformedInput = [['a', 'b', 'c', 'd', '"']] ∧
    parse_words malformedInput ≠ [['h', 'e', 'l', 'l', 'o']] := by
  exact ⟨rfl, by decide⟩

/-- C1: refuted on the code.  On guess `zzaaq` against target `aawwa`,
pass 2 of `Word::compute_marks` lets the single guess position 2
(letter `a`) consume *three* target positions (0, 1 and 4): the inner
loop of lines 128-133 has no `break`, so after the first match it keeps
consuming every further unconsumed equal target letter.  The greedy
matching described by the claim consumes exactly one target position
per matched guess position (positions 0 and 1, by guess positions 2 and
3), and the resulting feedback differs. -/
theorem pass2_overconsumes_targets :
    (pass2 wZzaaq wAawwa (pass1 wZzaaq wAawwa)).usedTarget = ![true, true, false, false, true] ∧
    (pass2 wZzaaq wAawwa (pass1 wZzaaq wAawwa)).usedWord = ![false, false, true, false, false] ∧
    (greedyPass2 wZzaaq wAawwa (pass1 wZzaaq wAawwa)).usedTarget
      = ![true, true, false, false, false] ∧
    (greedyPass2 wZzaaq wAawwa (pass1 wZzaaq wAawwa)).usedWord
      = ![false, false, true, true, false] ∧
    compute_marks wZzaaq wAawwa ≠ greedy_marks wZzaaq wAawwa := by
  decide

/-- C2: refuted on the code.  On guess `abcde` against target `edcba`,
guess position 0 is matched in pass 2 (it is unconsumed after pass 1
and consumed after pass 2), yet its slot in the returned code is
`unset`, not `wrongSpot`: pass 2 of `Word::compute_marks` never calls
`Marks::set_wrong_spot`. -/
theorem compute_marks_leaves_unset_slot :
    (pass1 wAbcde wEdcba).usedWord 0 = false ∧
    (pass2 wAbcde wEdcba (pass1 wAbcde wEdcba)).usedWord 0 = true ∧
    compute_marks wAbcde wEdcba 0 = Mark.unset := by
  decide

/-- C7 counterexample: `compute("abcde", "edcba")` does not return the
code with all five slots `WrongPosition` — the two words agree at
position 2 (both have `c`), which pass 1 marks `Correct`. -/
theorem compute_marks_anagram_not_all_wrong :
    compute_marks wAbcde wEdcba ≠ allWrongPosition := by
  decide

/-- C7 amended: `compute("abcde", "edcba")` returns `Correct` in slot 2
(the shared letter `c` at position 2) and `Unset` in slots 0, 1, 3, 4
(matched in pass 2, which writes no mark). -/
theorem compute_marks_anagram_value :
    compute_marks wAbcde wEdcba
      = ![Mark.unset, Mark.unset, Mark.correct, Mark.unset, Mark.unset] := by
  decide

/-- C8: for every 5-letter word `w`, `compute(w, w)` returns the code
with `Correct` in all five slots: pass 1 consumes every position, so
passes 2 and 3 change nothing. -/
theorem compute_marks_self (w : Word) : compute_marks w w = allCorrect := by
  funext i
  fin_cases i <;>
    simp [compute_marks, pass1, pass2, pass3, idxs, initMState, allCorrect, Function.update]

/-- C8 witness at a concrete word. -/
theorem compute_marks_self_witness : compute_marks wAbcde wAbcde = allCorrect :=
  compute_marks_self wAbcde

/-- C3: refuted on the code.  With one worker and the one-guess
instance `demoWords`/`demoTargets`, the interleaving in which the
worker (started by the `ThreadPool` constructor, before any `submit`)
observes the still empty queue and exits, after which the main thread
submits task 0, is a complete run: all tasks submitted, all workers
exited, `pool.wait()` returns.  Its score table still holds the initial
`0` at index 0, while the sequential `PartitionAggregator` score of
that guess is `1` — the startup race drops a task. -/
theorem scheduler_race_drops_task :
    CompleteRun demoScore 1 1 demoFinal ∧
    demoFinal.result 0 = 0 ∧
    demoScore 0 = 1 ∧
    demoFinal.result 0 ≠ demoScore 0 := by
  refine ⟨⟨?_, rfl, ?_⟩, rfl, by decide, by decide⟩
  · exact Relation.ReflTransGen.tail
      (Relation.ReflTransGen.single
        (SchedStep.exit (initSched 1) 0 rfl rfl))
      (SchedStep.submit demoExited (by decide))
  · intro w hw
    interval_cases w
    rfl
